import Mathlib

/-!
Verification of the deadlock/watchdog harness in src/ex10.c.

The C program runs W worker threads sharing R mutexes.  Each worker
repeatedly picks the resource pair a = tid % R, b = (tid + 1) % R
(lines 122-123), acquires both locks in the order chosen by the
acquisition policy (safe_mode = 0: odd tids invert the order, lines
126-129; safe_mode = 1: ascending index order, lines 130-133), works,
bumps the progress counters (lines 147-148) and releases both locks
(lines 152-153).  A watchdog thread (lines 163-200) samples the global
counter and reports a stall; parse_args (lines 39-63) reads the
configuration.

The model below is a small-step interleaving semantics of one phase.
Every atomic action of the C code (an atomic load or store, a mutex
lock or unlock, a counter increment) is one transition.  Pure delays
(sleep_ms, rand_r) and the wall-clock timestamp store of line 149 are
elided: they write no shared state that any claim mentions (real time
is outside the embedding).  The two conditional clears inside
release_lock_annotated (lines 104-105) are one transition: at most one
of them can fire because a worker never records the same resource
twice (the two chosen resources differ whenever R is at least 2), so
no observable intermediate state is lost.
-/

namespace Ex10

/-- Phase configuration: resource count, worker count and acquisition
mode; the field safe mirrors phase_t.safe_mode of ex10.c line 83. -/
structure P where
  R : Nat
  W : Nat
  safe : Bool

/-- Program counter of one worker thread: one value per atomic action
of the loop body, ex10.c lines 120-157.  setW1/lock1/rec1/clrW1/any1
are the five actions of acquire_lock_annotated(first) (lines 88-98),
setW2..any2 the same for second; incT and incO are the two counter
increments (lines 147-148); unl2/clr2/anyR2 are the actions of
release_lock_annotated(second) (lines 99-109), unl1/clr1/anyR1 the
same for first; idle is the loop-head stop check (line 120). -/
inductive WPC where
  | idle
  | setW1
  | lock1
  | rec1
  | clrW1
  | any1
  | setW2
  | lock2
  | rec2
  | clrW2
  | any2
  | incT
  | incO
  | unl2
  | clr2
  | anyR2
  | unl1
  | clr1
  | anyR1
  | done
  deriving DecidableEq, Fintype

/-- Mirror of thread_state_t, ex10.c lines 66-73.  hold_a, hold_b and
waiting use the same minus-one sentinel as the C ints; hany mirrors
holding_any; ops is the per-worker completed-operation counter.  The
last_progress_ns timestamp is elided (wall-clock time). -/
structure WS where
  pc : WPC
  hold_a : Int
  hold_b : Int
  waiting : Int
  hany : Int
  ops : Nat
  deriving DecidableEq

/-- Global state of one phase, mirroring phase_t of ex10.c lines
76-85: mutex ownership (owner r = some w when worker w holds mutex r,
none when it is free), the per-worker states, total_ops and stop. -/
structure St where
  owner : Nat → Option Nat
  ws : Nat → WS
  total : Nat
  stop : Bool

/-- Resource choice a = tid % R, ex10.c line 122. -/
def chooseA (p : P) (tid : Nat) : Nat := tid % p.R

/-- Resource choice b = (tid + 1) % R, ex10.c line 123. -/
def chooseB (p : P) (tid : Nat) : Nat := (tid + 1) % p.R

/-- Acquisition order, ex10.c lines 125-133: first = a, second = b;
in unordered mode odd tids swap the pair, in total-order mode the pair
is swapped when second < first. -/
def orderPair (safe : Bool) (tid a b : Nat) : Nat × Nat :=
  if !safe then
    if tid % 2 = 1 then (b, a) else (a, b)
  else
    if b < a then (b, a) else (a, b)

/-- The resource a worker locks first, ex10.c line 139. -/
def firstR (p : P) (tid : Nat) : Nat :=
  (orderPair p.safe tid (chooseA p tid) (chooseB p tid)).1

/-- The resource a worker locks second, ex10.c line 141. -/
def secondR (p : P) (tid : Nat) : Nat :=
  (orderPair p.safe tid (chooseA p tid) (chooseB p tid)).2

/-- Initial per-worker state, phase_init, ex10.c lines 218-225. -/
def initWS : WS :=
  { pc := WPC.idle, hold_a := -1, hold_b := -1, waiting := -1, hany := 0, ops := 0 }

/-- Initial phase state, phase_init, ex10.c lines 206-226. -/
def initSt : St :=
  { owner := fun _ => none, ws := fun _ => initWS, total := 0, stop := false }

/-- Replace the state of worker w. -/
def setWS (s : St) (w : Nat) (t : WS) : St :=
  { s with ws := Function.update s.ws w t }

/-- One atomic action of worker w.  Returns none when the worker has
no enabled action (it is blocked inside pthread_mutex_lock on a mutex
someone else holds, or it has left its loop). -/
def stepW (p : P) (s : St) (w : Nat) : Option St :=
  let st := s.ws w
  let f := firstR p w
  let c := secondR p w
  match st.pc with
  | WPC.idle =>
      some (setWS s w { st with pc := if s.stop then WPC.done else WPC.setW1 })
  | WPC.setW1 =>
      some (setWS s w { st with waiting := (f : Int), pc := WPC.lock1 })
  | WPC.lock1 =>
      match s.owner f with
      | some _ => none
      | none =>
          some { setWS s w { st with pc := WPC.rec1 } with
                 owner := Function.update s.owner f (some w) }
  | WPC.rec1 =>
      some (setWS s w
        (if st.hold_a = -1 then { st with hold_a := (f : Int), pc := WPC.clrW1 }
         else { st with hold_b := (f : Int), pc := WPC.clrW1 }))
  | WPC.clrW1 =>
      some (setWS s w { st with waiting := -1, pc := WPC.any1 })
  | WPC.any1 =>
      some (setWS s w { st with hany := 1, pc := WPC.setW2 })
  | WPC.setW2 =>
      some (setWS s w { st with waiting := (c : Int), pc := WPC.lock2 })
  | WPC.lock2 =>
      match s.owner c with
      | some _ => none
      | none =>
          some { setWS s w { st with pc := WPC.rec2 } with
                 owner := Function.update s.owner c (some w) }
  | WPC.rec2 =>
      some (setWS s w
        (if st.hold_a = -1 then { st with hold_a := (c : Int), pc := WPC.clrW2 }
         else { st with hold_b := (c : Int), pc := WPC.clrW2 }))
  | WPC.clrW2 =>
      some (setWS s w { st with waiting := -1, pc := WPC.any2 })
  | WPC.any2 =>
      some (setWS s w { st with hany := 1, pc := WPC.incT })
  | WPC.incT =>
      some { setWS s w { st with pc := WPC.incO } with total := s.total + 1 }
  | WPC.incO =>
      some (setWS s w { st with ops := st.ops + 1, pc := WPC.unl2 })
  | WPC.unl2 =>
      some { setWS s w { st with pc := WPC.clr2 } with
             owner := Function.update s.owner c none }
  | WPC.clr2 =>
      some (setWS s w
        { st with hold_a := if st.hold_a = (c : Int) then -1 else st.hold_a,
                  hold_b := if st.hold_b = (c : Int) then -1 else st.hold_b,
                  pc := WPC.anyR2 })
  | WPC.anyR2 =>
      some (setWS s w
        { st with hany := if st.hold_a = -1 ∧ st.hold_b = -1 then 0 else st.hany,
                  pc := WPC.unl1 })
  | WPC.unl1 =>
      some { setWS s w { st with pc := WPC.clr1 } with
             owner := Function.update s.owner f none }
  | WPC.clr1 =>
      some (setWS s w
        { st with hold_a := if st.hold_a = (f : Int) then -1 else st.hold_a,
                  hold_b := if st.hold_b = (f : Int) then -1 else st.hold_b,
                  pc := WPC.anyR1 })
  | WPC.anyR1 =>
      some (setWS s w
        { st with hany := if st.hold_a = -1 ∧ st.hold_b = -1 then 0 else st.hany,
                  pc := WPC.idle })
  | WPC.done => none

/-- Interleaved step relation of the phase: either some worker with
index below W performs its next atomic action, or the stop flag is set
(the main thread at its deadline, ex10.c line 254, or the watchdog,
line 195, may do this at any moment). -/
inductive Step (p : P) : St → St → Prop where
  | work (s : St) (w : Nat) (hw : w < p.W) (s2 : St)
      (h : stepW p s w = some s2) : Step p s s2
  | halt (s : St) : Step p s { s with stop := true }

/-- Reachability from the freshly initialised phase. -/
def Reach (p : P) (s : St) : Prop :=
  Relation.ReflTransGen (Step p) initSt s

/-- Run an explicit schedule (a list of worker indices); none when a
scheduled worker has no enabled action. -/
def exec (p : P) : St → List Nat → Option St
  | s, [] => some s
  | s, w :: l =>
      match stepW p s w with
      | none => none
      | some s2 => exec p s2 l

/-- Program counters at which the worker owns the mutex it locks
first: from the lock call of line 91 returning until the unlock of
line 100 in release_lock_annotated(first). -/
def ownsF : WPC → Bool
  | WPC.rec1 | WPC.clrW1 | WPC.any1 | WPC.setW2 | WPC.lock2 | WPC.rec2
  | WPC.clrW2 | WPC.any2 | WPC.incT | WPC.incO | WPC.unl2 | WPC.clr2
  | WPC.anyR2 | WPC.unl1 => true
  | _ => false

/-- Program counters at which the worker owns the mutex it locks
second. -/
def ownsS : WPC → Bool
  | WPC.rec2 | WPC.clrW2 | WPC.any2 | WPC.incT | WPC.incO | WPC.unl2 => true
  | _ => false

/-- Program counters at which hold_a records the first resource: from
the store of line 94 until the clear inside release(first). -/
def recA : WPC → Bool
  | WPC.clrW1 | WPC.any1 | WPC.setW2 | WPC.lock2 | WPC.rec2 | WPC.clrW2
  | WPC.any2 | WPC.incT | WPC.incO | WPC.unl2 | WPC.clr2 | WPC.anyR2
  | WPC.unl1 | WPC.clr1 => true
  | _ => false

/-- Program counters at which hold_b records the second resource. -/
def recB : WPC → Bool
  | WPC.clrW2 | WPC.any2 | WPC.incT | WPC.incO | WPC.unl2 | WPC.clr2 => true
  | _ => false

/-- Program counters at which waiting_for holds the first resource:
from the store of line 90 until the clear of line 96. -/
def waitsF : WPC → Bool
  | WPC.lock1 | WPC.rec1 | WPC.clrW1 => true
  | _ => false

/-- Program counters at which waiting_for holds the second resource. -/
def waitsS : WPC → Bool
  | WPC.lock2 | WPC.rec2 | WPC.clrW2 => true
  | _ => false

/-- Value of a record field: the resource id while the flag is on, the
minus-one sentinel otherwise. -/
def recVal : Bool → Nat → Int
  | true, r => (r : Int)
  | false, _ => -1

/-- Value of the waiting_for field from the two phase flags. -/
def waitVal : Bool → Bool → Nat → Nat → Int
  | true, _, f, _ => (f : Int)
  | false, true, _, c => (c : Int)
  | false, false, _, _ => -1

/-- Per-worker invariant, over an ownership map and a worker state:
the annotation fields are determined by the program counter, and at
owning counters the worker really owns the corresponding mutex. -/
def WInvAt (p : P) (ow : Nat → Option Nat) (t : WS) (w : Nat) : Prop :=
  t.hold_a = recVal (recA t.pc) (firstR p w) ∧
  t.hold_b = recVal (recB t.pc) (secondR p w) ∧
  t.waiting = waitVal (waitsF t.pc) (waitsS t.pc) (firstR p w) (secondR p w) ∧
  (ownsF t.pc = true → ow (firstR p w) = some w) ∧
  (ownsS t.pc = true → ow (secondR p w) = some w)

/-- Per-worker invariant of a phase state. -/
def WInv (p : P) (s : St) (w : Nat) : Prop :=
  WInvAt p s.owner (s.ws w) w

/-- Every owned mutex is the first or second resource of its owner,
owned at a counter where the owner really holds it. -/
def OwnersOK (p : P) (s : St) : Prop :=
  ∀ r v, s.owner r = some v →
    ((r = firstR p v ∧ ownsF (s.ws v).pc = true) ∨
     (r = secondR p v ∧ ownsS (s.ws v).pc = true))

/-- Contribution of one worker to the progress accounting: its own
counter, plus one for a pending ops increment when the global counter
(line 147) is already bumped but the own counter (line 148) not yet. -/
def countWS (t : WS) : Nat :=
  t.ops + (if t.pc = WPC.incO then 1 else 0)

/-- Global invariant of the phase. -/
def Inv (p : P) (s : St) : Prop :=
  (∀ w, p.W ≤ w → s.ws w = initWS) ∧
  OwnersOK p s ∧
  (∀ w, WInv p s w) ∧
  s.total = ∑ v ∈ Finset.range p.W, countWS (s.ws v)

/-- The resource a worker is attempting to lock, when it is at a lock
call. -/
def blockedOn (p : P) (s : St) (w : Nat) : Option Nat :=
  match (s.ws w).pc with
  | WPC.lock1 => some (firstR p w)
  | WPC.lock2 => some (secondR p w)
  | _ => none

/-- Wait-for edge: u is inside a lock call on a mutex that v currently
holds. -/
def wfEdge (p : P) (s : St) (u v : Nat) : Prop :=
  ∃ r, blockedOn p s u = some r ∧ s.owner r = some v

/-- A cycle in the wait-for graph: a nonempty edge path from some
worker back to itself. -/
def HasWaitCycle (p : P) (s : St) : Prop :=
  ∃ w, Relation.TransGen (wfEdge p s) w w

/-- Two workers each holding one mutex while awaiting the mutex the
other one holds. -/
def TwoCycle (p : P) (s : St) : Prop :=
  ∃ u v, u ≠ v ∧ wfEdge p s u v ∧ wfEdge p s v u

/-- The measure used for the total-order argument: the index of the
resource a blocked worker is waiting on. -/
def tgt (p : P) (s : St) (w : Nat) : Nat :=
  (blockedOn p s w).getD 0

/-- Worker w has resource r in its diagnostic record (hold_a, hold_b),
the pair the watchdog snapshot prints, ex10.c lines 186-192. -/
def RecordHolds (s : St) (w r : Nat) : Prop :=
  (s.ws w).hold_a = (r : Int) ∨ (s.ws w).hold_b = (r : Int)

/-- Unordered phase with the defaults R = 5, W = 5 (claim C2). -/
def p55 : P := { R := 5, W := 5, safe := false }

/-- Small total-order phase used for explicit traces. -/
def p22 : P := { R := 2, W := 2, safe := true }

/-- Schedule driving worker 0 through a whole operation up to the
point just after it unlocked its first mutex (line 100 of the second
release call) but before it cleared its record (lines 104-105), then
letting worker 1 lock and record that same mutex. -/
def schedC5 : List Nat := List.replicate 17 0 ++ [1, 1, 1, 1]

/-- The state reached by schedC5: both workers' records contain
resource 0. -/
def sBad : St :=
  match exec p22 initSt schedC5 with
  | some s => s
  | none => initSt

/-- The state reached by two actions of worker 0: it has stored
waiting_for and sits inside the lock call on its first mutex. -/
def sLock : St :=
  match exec p22 initSt [0, 0] with
  | some s => s
  | none => initSt

/-- What the watchdog observes from one worker while printing the
diagnostic snapshot, ex10.c lines 185-192: the four annotation atomics,
the ops counter, and the now_ns() value of its print line. -/
structure WObs where
  ha : Int
  hb : Int
  wf : Int
  lp : Int
  tnow : Int
  ops : Int
  deriving DecidableEq

/-- What one wakeup of the watchdog loop observes, ex10.c lines
171-173: the stop flag at the while check, total_ops after the sleep,
now_ns(), and (only used if it stalls) the per-worker snapshot. -/
structure WdObs where
  stop : Bool
  curOps : Int
  now : Int
  workers : List WObs
  deriving DecidableEq

/-- One line of the diagnostic snapshot, ex10.c line 191: worker id,
held pair, awaited resource, nanoseconds since last progress, ops. -/
structure DiagRec where
  tid : Nat
  ha : Int
  hb : Int
  wf : Int
  idle_ns : Int
  ops : Int
  deriving DecidableEq

/-- Result of the watchdog thread: it either leaves its loop quietly
(stop was requested elsewhere) or declares a stall, emitting the
snapshot and setting stop itself (lines 182-196). -/
inductive WdResult where
  | doneQuiet
  | doneStalled (diag : List DiagRec)
  deriving DecidableEq

/-- The diagnostic print loop, ex10.c lines 184-193: one record per
worker, in worker order. -/
def diagFrom : Nat → List WObs → List DiagRec
  | _, [] => []
  | i, o :: l =>
      { tid := i, ha := o.ha, hb := o.hb, wf := o.wf,
        idle_ns := o.tnow - o.lp, ops := o.ops } :: diagFrom (i + 1) l

/-- The watchdog loop, ex10.c lines 171-198, over the sequence of its
wakeup observations.  Arguments: timeout in nanoseconds (line 169),
then the tracked last_ops and last_change (lines 167-168). -/
def wdRun (tmo : Int) : Int → Int → List WdObs → WdResult
  | _, _, [] => WdResult.doneQuiet
  | lastOps, lastChange, o :: l =>
      if o.stop then WdResult.doneQuiet
      else if o.curOps ≠ lastOps then wdRun tmo o.curOps o.now l
      else if tmo ≤ o.now - lastChange then
        WdResult.doneStalled (diagFrom 0 o.workers)
      else wdRun tmo lastOps lastChange l

/-- One command-line option as delivered by getopt, ex10.c line 47.
The values carried by r/w/t/d are the atoi results; other stands for
-h or any unrecognised option, which getopt routes to the default
branch of the switch (usage message and exit(1), lines 53-56). -/
inductive CliOpt where
  | r (v : Int)
  | w (v : Int)
  | t (v : Int)
  | d (v : Int)
  | other
  deriving DecidableEq

/-- Mirror of config_t, ex10.c lines 32-37.  Note it has no
acquisition-mode field. -/
structure config_t where
  R : Int
  W : Int
  watchdog_timeout : Int
  duration : Int
  deriving DecidableEq

/-- The defaults set at ex10.c lines 41-44. -/
def defaultCfg : config_t :=
  { R := 5, W := 5, watchdog_timeout := 3, duration := 12 }

/-- The getopt loop, ex10.c lines 47-58; none models exit(1). -/
def optLoop : config_t → List CliOpt → Option config_t
  | c, [] => some c
  | c, CliOpt.r v :: l => optLoop { c with R := v } l
  | c, CliOpt.w v :: l => optLoop { c with W := v } l
  | c, CliOpt.t v :: l => optLoop { c with watchdog_timeout := v } l
  | c, CliOpt.d v :: l => optLoop { c with duration := v } l
  | _, CliOpt.other :: _ => none

/-- The clamping of ex10.c lines 59-62. -/
def clampCfg (c : config_t) : config_t :=
  { R := if c.R < 2 then 2 else c.R,
    W := if c.W < 2 then 2 else c.W,
    watchdog_timeout := if c.watchdog_timeout < 1 then 1 else c.watchdog_timeout,
    duration := if c.duration < 3 then 3 else c.duration }

/-- parse_args, ex10.c lines 39-63: defaults, getopt loop, clamping;
none models the exit(1) of line 56. -/
def parse_args (args : List CliOpt) : Option config_t :=
  (optLoop defaultCfg args).map clampCfg

/-- The phases main runs, ex10.c lines 267-282: for any parsed
configuration, phase A with safe_mode = 0 then phase B with
safe_mode = 1, each with the same configuration. -/
def mainPhases (args : List CliOpt) : Option (List (config_t × Bool)) :=
  (parse_args args).map (fun c => [(c, false), (c, true)])

/-! Section: Basic facts about the resource choice and the acquisition order -/

lemma chooseA_ne_chooseB (p : P) (hR : 2 ≤ p.R) (w : Nat) :
    chooseA p w ≠ chooseB p w := by
  unfold chooseA chooseB
  intro h
  have h0 : 0 < p.R := by omega
  have h1 : (w + 1) % p.R = (w % p.R + 1) % p.R := by
    conv_lhs => rw [Nat.add_mod]
    rw [Nat.mod_eq_of_lt (show 1 < p.R by omega)]
  have h2 : w % p.R < p.R := Nat.mod_lt _ h0
  rcases Nat.lt_or_ge (w % p.R + 1) p.R with hlt | hge
  · rw [h1, Nat.mod_eq_of_lt hlt] at h
    omega
  · have he : w % p.R + 1 = p.R := by omega
    rw [h1, he, Nat.mod_self] at h
    omega

lemma order_perm (safe : Bool) (tid a b : Nat) :
    orderPair safe tid a b = (a, b) ∨ orderPair safe tid a b = (b, a) := by
  unfold orderPair
  split_ifs <;> simp

lemma firstR_secondR_perm (p : P) (w : Nat) :
    (firstR p w = chooseA p w ∧ secondR p w = chooseB p w) ∨
    (firstR p w = chooseB p w ∧ secondR p w = chooseA p w) := by
  unfold firstR secondR
  rcases order_perm p.safe w (chooseA p w) (chooseB p w) with h | h <;>
    rw [h] <;> simp

lemma fs_ne (p : P) (hR : 2 ≤ p.R) (w : Nat) : firstR p w ≠ secondR p w := by
  have h := chooseA_ne_chooseB p hR w
  rcases firstR_secondR_perm p w with ⟨h1, h2⟩ | ⟨h1, h2⟩ <;> rw [h1, h2]
  · exact h
  · exact fun hc => h hc.symm

lemma safe_first_lt (p : P) (hs : p.safe = true) (hR : 2 ≤ p.R) (w : Nat) :
    firstR p w < secondR p w := by
  have h := chooseA_ne_chooseB p hR w
  unfold firstR secondR orderPair
  rw [hs]
  simp only [Bool.not_true, Bool.false_eq_true, if_false]
  split
  · rename_i hba
    exact hba
  · rename_i hba
    show chooseA p w < chooseB p w
    omega

/-! Section: Preservation of the phase invariant -/

lemma winvat_keep (p : P) (ow ow2 : Nat → Option Nat) (t : WS) (v : Nat)
    (h : WInvAt p ow t v)
    (hk : ∀ x, ow x = some v → ow2 x = some v) :
    WInvAt p ow2 t v := by
  obtain ⟨h1, h2, h3, h4, h5⟩ := h
  exact ⟨h1, h2, h3, fun hh => hk _ (h4 hh), fun hh => hk _ (h5 hh)⟩

lemma untouched_upd (W0 : Nat) (s : St) (w : Nat) (hw : w < W0) (t : WS)
    (h : ∀ v, W0 ≤ v → s.ws v = initWS) :
    ∀ v, W0 ≤ v → Function.update s.ws w t v = initWS := by
  intro v hv
  rw [Function.update_noteq (by omega)]
  exact h v hv

lemma count_upd (p : P) (s : St) (w : Nat) (hw : w < p.W) (t : WS) (d : Nat)
    (hcnt : s.total = ∑ v ∈ Finset.range p.W, countWS (s.ws v))
    (ht : countWS t = countWS (s.ws w) + d) :
    s.total + d = ∑ v ∈ Finset.range p.W, countWS (Function.update s.ws w t v) := by
  have hmem : w ∈ Finset.range p.W := Finset.mem_range.mpr hw
  have hpt : ∀ v ∈ Finset.range p.W, countWS (Function.update s.ws w t v) =
      Function.update (fun u => countWS (s.ws u)) w (countWS t) v := by
    intro v _
    by_cases hvw : v = w
    · subst hvw
      rw [Function.update_same, Function.update_same]
    · rw [Function.update_noteq hvw, Function.update_noteq hvw]
  rw [Finset.sum_congr rfl hpt, Finset.sum_update_of_mem hmem]
  have hsplit : ∑ v ∈ Finset.range p.W, countWS (s.ws v) =
      ∑ v ∈ Finset.range p.W \ {w}, countWS (s.ws v) + countWS (s.ws w) :=
    Finset.sum_eq_sum_diff_singleton_add hmem _
  have hbeta : ∑ v ∈ Finset.range p.W \ {w}, (fun u => countWS (s.ws u)) v =
      ∑ v ∈ Finset.range p.W \ {w}, countWS (s.ws v) := rfl
  omega

/-- Preservation of the invariant under a step that only rewrites the
stepping worker's own state (and possibly bumps the total counter by
d), leaving mutex ownership untouched. -/
lemma inv_setWS (p : P) (s : St) (w : Nat) (hw : w < p.W) (t : WS) (d : Nat)
    (hidle : ∀ v, p.W ≤ v → s.ws v = initWS)
    (hown : OwnersOK p s)
    (hwall : ∀ v, WInv p s v)
    (hcnt : s.total = ∑ v ∈ Finset.range p.W, countWS (s.ws v))
    (hF : ownsF (s.ws w).pc = true → ownsF t.pc = true)
    (hS : ownsS (s.ws w).pc = true → ownsS t.pc = true)
    (hterm : countWS t = countWS (s.ws w) + d)
    (hself : WInvAt p s.owner t w) :
    Inv p { setWS s w t with total := s.total + d } := by
  refine ⟨?_, ?_, ?_, ?_⟩
  · exact untouched_upd p.W s w hw t hidle
  · intro r v hrv
    have hrv2 : s.owner r = some v := hrv
    by_cases hvw : v = w
    · subst hvw
      show (r = firstR p v ∧ ownsF (Function.update s.ws v t v).pc = true) ∨
           (r = secondR p v ∧ ownsS (Function.update s.ws v t v).pc = true)
      rw [Function.update_same]
      rcases hown r v hrv2 with ⟨h1, h2⟩ | ⟨h1, h2⟩
      · exact Or.inl ⟨h1, hF h2⟩
      · exact Or.inr ⟨h1, hS h2⟩
    · show (r = firstR p v ∧ ownsF (Function.update s.ws w t v).pc = true) ∨
           (r = secondR p v ∧ ownsS (Function.update s.ws w t v).pc = true)
      rw [Function.update_noteq hvw]
      exact hown r v hrv2
  · intro v
    by_cases hvw : v = w
    · subst hvw
      show WInvAt p s.owner (Function.update s.ws v t v) v
      rw [Function.update_same]
      exact hself
    · show WInvAt p s.owner (Function.update s.ws w t v) v
      rw [Function.update_noteq hvw]
      exact hwall v
  · show s.total + d = ∑ v ∈ Finset.range p.W, countWS (Function.update s.ws w t v)
    exact count_upd p s w hw t d hcnt hterm

/-- Preservation of the invariant under a lock step: worker w grabs
the free mutex q and moves to counter t.pc. -/
lemma inv_lock (p : P) (s : St) (w : Nat) (hw : w < p.W) (q : Nat) (t : WS)
    (hfree : s.owner q = none)
    (hidle : ∀ v, p.W ≤ v → s.ws v = initWS)
    (hown : OwnersOK p s)
    (hwall : ∀ v, WInv p s v)
    (hcnt : s.total = ∑ v ∈ Finset.range p.W, countWS (s.ws v))
    (hF : ownsF (s.ws w).pc = true → ownsF t.pc = true)
    (hS : ownsS (s.ws w).pc = true → ownsS t.pc = true)
    (hq : (q = firstR p w ∧ ownsF t.pc = true) ∨
          (q = secondR p w ∧ ownsS t.pc = true))
    (hterm : countWS t = countWS (s.ws w))
    (hself : WInvAt p (Function.update s.owner q (some w)) t w) :
    Inv p { setWS s w t with owner := Function.update s.owner q (some w) } := by
  refine ⟨?_, ?_, ?_, ?_⟩
  · exact untouched_upd p.W s w hw t hidle
  · intro r v hrv
    have hrv2 : Function.update s.owner q (some w) r = some v := hrv
    by_cases hr : r = q
    · subst hr
      rw [Function.update_same, Option.some.injEq] at hrv2
      subst hrv2
      show (r = firstR p w ∧ ownsF (Function.update s.ws w t w).pc = true) ∨
           (r = secondR p w ∧ ownsS (Function.update s.ws w t w).pc = true)
      rw [Function.update_same]
      exact hq
    · rw [Function.update_noteq hr] at hrv2
      by_cases hvw : v = w
      · subst hvw
        show (r = firstR p v ∧ ownsF (Function.update s.ws v t v).pc = true) ∨
             (r = secondR p v ∧ ownsS (Function.update s.ws v t v).pc = true)
        rw [Function.update_same]
        rcases hown r v hrv2 with ⟨h1, h2⟩ | ⟨h1, h2⟩
        · exact Or.inl ⟨h1, hF h2⟩
        · exact Or.inr ⟨h1, hS h2⟩
      · show (r = firstR p v ∧ ownsF (Function.update s.ws w t v).pc = true) ∨
             (r = secondR p v ∧ ownsS (Function.update s.ws w t v).pc = true)
        rw [Function.update_noteq hvw]
        exact hown r v hrv2
  · intro v
    by_cases hvw : v = w
    · subst hvw
      show WInvAt p (Function.update s.owner q (some v)) (Function.update s.ws v t v) v
      rw [Function.update_same]
      exact hself
    · show WInvAt p (Function.update s.owner q (some w)) (Function.update s.ws w t v) v
      rw [Function.update_noteq hvw]
      refine winvat_keep p s.owner _ _ v (hwall v) ?_
      intro x hx
      by_cases hxq : x = q
      · subst hxq
        rw [hfree] at hx
        exact Option.noConfusion hx
      · rw [Function.update_noteq hxq]
        exact hx
  · show s.total = ∑ v ∈ Finset.range p.W, countWS (Function.update s.ws w t v)
    have h0 := count_upd p s w hw t 0 hcnt (by rw [hterm, Nat.add_zero])
    omega

/-- Preservation of the invariant under an unlock step: worker w
releases the mutex q it owns and moves to counter t.pc. -/
lemma inv_unlock (p : P) (s : St) (w : Nat) (hw : w < p.W) (q : Nat) (t : WS)
    (hq : s.owner q = some w)
    (hidle : ∀ v, p.W ≤ v → s.ws v = initWS)
    (hown : OwnersOK p s)
    (hwall : ∀ v, WInv p s v)
    (hcnt : s.total = ∑ v ∈ Finset.range p.W, countWS (s.ws v))
    (htrans : ∀ r, s.owner r = some w → r ≠ q →
        ((r = firstR p w ∧ ownsF t.pc = true) ∨
         (r = secondR p w ∧ ownsS t.pc = true)))
    (hterm : countWS t = countWS (s.ws w))
    (hself : WInvAt p (Function.update s.owner q none) t w) :
    Inv p { setWS s w t with owner := Function.update s.owner q none } := by
  refine ⟨?_, ?_, ?_, ?_⟩
  · exact untouched_upd p.W s w hw t hidle
  · intro r v hrv
    have hrv2 : Function.update s.owner q none r = some v := hrv
    by_cases hr : r = q
    · subst hr
      rw [Function.update_same] at hrv2
      exact Option.noConfusion hrv2
    · rw [Function.update_noteq hr] at hrv2
      by_cases hvw : v = w
      · subst hvw
        show (r = firstR p v ∧ ownsF (Function.update s.ws v t v).pc = true) ∨
             (r = secondR p v ∧ ownsS (Function.update s.ws v t v).pc = true)
        rw [Function.update_same]
        exact htrans r hrv2 hr
      · show (r = firstR p v ∧ ownsF (Function.update s.ws w t v).pc = true) ∨
             (r = secondR p v ∧ ownsS (Function.update s.ws w t v).pc = true)
        rw [Function.update_noteq hvw]
        exact hown r v hrv2
  · intro v
    by_cases hvw : v = w
    · subst hvw
      show WInvAt p (Function.update s.owner q none) (Function.update s.ws v t v) v
      rw [Function.update_same]
      exact hself
    · show WInvAt p (Function.update s.owner q none) (Function.update s.ws w t v) v
      rw [Function.update_noteq hvw]
      refine winvat_keep p s.owner _ _ v (hwall v) ?_
      intro x hx
      by_cases hxq : x = q
      · subst hxq
        rw [hq, Option.some.injEq] at hx
        exact absurd hx.symm hvw
      · rw [Function.update_noteq hxq]
        exact hx
  · show s.total = ∑ v ∈ Finset.range p.W, countWS (Function.update s.ws w t v)
    have h0 := count_upd p s w hw t 0 hcnt (by rw [hterm, Nat.add_zero])
    omega

/-- The freshly initialised phase satisfies the invariant. -/
lemma inv_init (p : P) : Inv p initSt := by
  refine ⟨fun w _ => rfl, ?_, ?_, ?_⟩
  · intro r v hrv
    exact Option.noConfusion hrv
  · intro w
    refine ⟨rfl, rfl, rfl, ?_, ?_⟩ <;> intro h <;>
      simp [initSt, initWS, ownsF, ownsS] at h
  · simp [initSt, countWS, initWS]

/-- Every step of the phase preserves the invariant. -/
theorem step_inv (p : P) (hR : 2 ≤ p.R) (s s2 : St) (hinv : Inv p s)
    (hstep : Step p s s2) : Inv p s2 := by
  obtain ⟨hidle, hown, hwall, hcnt⟩ := hinv
  cases hstep with
  | halt => exact ⟨hidle, hown, hwall, hcnt⟩
  | work w hw s20 hs =>
    have hws := hwall w
    unfold WInv WInvAt at hws
    simp only [stepW] at hs
    split at hs
    -- idle
    case _ heq =>
      rw [heq] at hws
      simp only [recA, recB, waitsF, waitsS, recVal, waitVal, ownsF, ownsS] at hws
      obtain ⟨ha, hb, hwt, hoF, hoS⟩ := hws
      cases hstop : s.stop with
      | false =>
          rw [hstop] at hs
          simp at hs
          subst hs
          exact inv_setWS p s w hw _ 0 hidle hown hwall hcnt
            (fun h2 => absurd (heq ▸ h2) (by decide))
            (fun h2 => absurd (heq ▸ h2) (by decide))
            (by simp [countWS, heq])
            (by refine ⟨?_, ?_, ?_, ?_, ?_⟩ <;>
                  simp only [recA, recB, waitsF, waitsS, recVal, waitVal,
                    ownsF, ownsS] <;>
                  first
                  | trivial
                  | rfl
                  | exact ha
                  | exact hb
                  | exact hwt
                  | (intro h2; exact hoF trivial)
                  | (intro h2; exact hoS trivial)
                  | (intro h2; exact absurd h2 (by decide)))
      | true =>
          rw [hstop] at hs
          simp at hs
          subst hs
          exact inv_setWS p s w hw _ 0 hidle hown hwall hcnt
            (fun h2 => absurd (heq ▸ h2) (by decide))
            (fun h2 => absurd (heq ▸ h2) (by decide))
            (by simp [countWS, heq])
            (by refine ⟨?_, ?_, ?_, ?_, ?_⟩ <;>
                  simp only [recA, recB, waitsF, waitsS, recVal, waitVal,
                    ownsF, ownsS] <;>
                  first
                  | trivial
                  | rfl
                  | exact ha
                  | exact hb
                  | exact hwt
                  | (intro h2; exact hoF trivial)
                  | (intro h2; exact hoS trivial)
                  | (intro h2; exact absurd h2 (by decide)))
    -- setW1
    case _ heq =>
      rw [heq] at hws
      simp only [recA, recB, waitsF, waitsS, recVal, waitVal, ownsF, ownsS] at hws
      obtain ⟨ha, hb, hwt, hoF, hoS⟩ := hws
      rw [Option.some.injEq] at hs
      subst hs
      exact inv_setWS p s w hw _ 0 hidle hown hwall hcnt
        (fun h2 => absurd (heq ▸ h2) (by decide))
        (fun h2 => absurd (heq ▸ h2) (by decide))
        (by simp [countWS, heq])
        (by refine ⟨?_, ?_, ?_, ?_, ?_⟩ <;>
              simp only [recA, recB, waitsF, waitsS, recVal, waitVal,
                ownsF, ownsS] <;>
              first
              | trivial
              | rfl
              | exact ha
              | exact hb
              | exact hwt
              | (intro h2; exact hoF trivial)
              | (intro h2; exact hoS trivial)
              | (intro h2; exact absurd h2 (by decide)))
    -- lock1
    case _ heq =>
      rw [heq] at hws
      simp only [recA, recB, waitsF, waitsS, recVal, waitVal, ownsF, ownsS] at hws
      obtain ⟨ha, hb, hwt, hoF, hoS⟩ := hws
      split at hs
      case _ => exact Option.noConfusion hs
      case _ heq2 =>
        rw [Option.some.injEq] at hs
        subst hs
        exact inv_lock p s w hw (firstR p w) _ heq2 hidle hown hwall hcnt
          (fun h2 => absurd (heq ▸ h2) (by decide))
          (fun h2 => absurd (heq ▸ h2) (by decide))
          (Or.inl ⟨rfl, rfl⟩)
          (by simp [countWS, heq])
          (by refine ⟨?_, ?_, ?_, ?_, ?_⟩ <;>
                simp only [recA, recB, waitsF, waitsS, recVal, waitVal,
                  ownsF, ownsS] <;>
                first
                | trivial
                | rfl
                | exact ha
                | exact hb
                | exact hwt
                | (intro h2; exact Function.update_same _ _ _)
                | (intro h2; exact hoF trivial)
                | (intro h2; exact hoS trivial)
                | (intro h2; exact absurd h2 (by decide)))
    -- rec1
    case _ heq =>
      rw [heq] at hws
      simp only [recA, recB, waitsF, waitsS, recVal, waitVal, ownsF, ownsS] at hws
      obtain ⟨ha, hb, hwt, hoF, hoS⟩ := hws
      split at hs
      case _ h3 =>
        rw [Option.some.injEq] at hs
        subst hs
        exact inv_setWS p s w hw _ 0 hidle hown hwall hcnt
          (fun _ => rfl)
          (fun h2 => absurd (heq ▸ h2) (by decide))
          (by simp [countWS, heq])
          (by refine ⟨?_, ?_, ?_, ?_, ?_⟩ <;>
                simp only [recA, recB, waitsF, waitsS, recVal, waitVal,
                  ownsF, ownsS] <;>
                first
                | trivial
                | rfl
                | exact ha
                | exact hb
                | exact hwt
                | (intro h2; exact hoF trivial)
                | (intro h2; exact hoS trivial)
                | (intro h2; exact absurd h2 (by decide)))
      case _ h3 => exact absurd ha h3
    -- clrW1
    case _ heq =>
      rw [heq] at hws
      simp only [recA, recB, waitsF, waitsS, recVal, waitVal, ownsF, ownsS] at hws
      obtain ⟨ha, hb, hwt, hoF, hoS⟩ := hws
      rw [Option.some.injEq] at hs
      subst hs
      exact inv_setWS p s w hw _ 0 hidle hown hwall hcnt
        (fun _ => rfl)
        (fun h2 => absurd (heq ▸ h2) (by decide))
        (by simp [countWS, heq])
        (by refine ⟨?_, ?_, ?_, ?_, ?_⟩ <;>
              simp only [recA, recB, waitsF, waitsS, recVal, waitVal,
                ownsF, ownsS] <;>
              first
              | trivial
              | rfl
              | exact ha
              | exact hb
              | exact hwt
              | (intro h2; exact hoF trivial)
              | (intro h2; exact hoS trivial)
              | (intro h2; exact absurd h2 (by decide)))
    -- any1
    case _ heq =>
      rw [heq] at hws
      simp only [recA, recB, waitsF, waitsS, recVal, waitVal, ownsF, ownsS] at hws
      obtain ⟨ha, hb, hwt, hoF, hoS⟩ := hws
      rw [Option.some.injEq] at hs
      subst hs
      exact inv_setWS p s w hw _ 0 hidle hown hwall hcnt
        (fun _ => rfl)
        (fun h2 => absurd (heq ▸ h2) (by decide))
        (by simp [countWS, heq])
        (by refine ⟨?_, ?_, ?_, ?_, ?_⟩ <;>
              simp only [recA, recB, waitsF, waitsS, recVal, waitVal,
                ownsF, ownsS] <;>
              first
              | trivial
              | rfl
              | exact ha
              | exact hb
              | exact hwt
              | (intro h2; exact hoF trivial)
              | (intro h2; exact hoS trivial)
              | (intro h2; exact absurd h2 (by decide)))
    -- setW2
    case _ heq =>
      rw [heq] at hws
      simp only [recA, recB, waitsF, waitsS, recVal, waitVal, ownsF, ownsS] at hws
      obtain ⟨ha, hb, hwt, hoF, hoS⟩ := hws
      rw [Option.some.injEq] at hs
      subst hs
      exact inv_setWS p s w hw _ 0 hidle hown hwall hcnt
        (fun _ => rfl)
        (fun h2 => absurd (heq ▸ h2) (by decide))
        (by simp [countWS, heq])
        (by refine ⟨?_, ?_, ?_, ?_, ?_⟩ <;>
              simp only [recA, recB, waitsF, waitsS, recVal, waitVal,
                ownsF, ownsS] <;>
              first
              | trivial
              | rfl
              | exact ha
              | exact hb
              | exact hwt
              | (intro h2; exact hoF trivial)
              | (intro h2; exact hoS trivial)
              | (intro h2; exact absurd h2 (by decide)))
    -- lock2
    case _ heq =>
      rw [heq] at hws
      simp only [recA, recB, waitsF, waitsS, recVal, waitVal, ownsF, ownsS] at hws
      obtain ⟨ha, hb, hwt, hoF, hoS⟩ := hws
      split at hs
      case _ => exact Option.noConfusion hs
      case _ heq2 =>
        rw [Option.some.injEq] at hs
        subst hs
        exact inv_lock p s w hw (secondR p w) _ heq2 hidle hown hwall hcnt
          (fun _ => rfl)
          (fun h2 => absurd (heq ▸ h2) (by decide))
          (Or.inr ⟨rfl, rfl⟩)
          (by simp [countWS, heq])
          (by refine ⟨?_, ?_, ?_, ?_, ?_⟩ <;>
                simp only [recA, recB, waitsF, waitsS, recVal, waitVal,
                  ownsF, ownsS] <;>
                first
                | trivial
                | rfl
                | exact ha
                | exact hb
                | exact hwt
                | (intro h2
                   by_cases hfc : firstR p w = secondR p w
                   · rw [hfc]
                     exact Function.update_same _ _ _
                   · rw [Function.update_noteq hfc]
                     exact hoF trivial)
                | (intro h2; exact Function.update_same _ _ _)
                | (intro h2; exact hoS trivial)
                | (intro h2; exact absurd h2 (by decide)))
    -- rec2
    case _ heq =>
      rw [heq] at hws
      simp only [recA, recB, waitsF, waitsS, recVal, waitVal, ownsF, ownsS] at hws
      obtain ⟨ha, hb, hwt, hoF, hoS⟩ := hws
      split at hs
      case _ h3 =>
        rw [ha] at h3
        exact absurd h3 (by omega)
      case _ h3 =>
        rw [Option.some.injEq] at hs
        subst hs
        exact inv_setWS p s w hw _ 0 hidle hown hwall hcnt
          (fun _ => rfl)
          (fun _ => rfl)
          (by simp [countWS, heq])
          (by refine ⟨?_, ?_, ?_, ?_, ?_⟩ <;>
                simp only [recA, recB, waitsF, waitsS, recVal, waitVal,
                  ownsF, ownsS] <;>
                first
                | trivial
                | rfl
                | exact ha
                | exact hb
                | exact hwt
                | (intro h2; exact hoF trivial)
                | (intro h2; exact hoS trivial)
                | (intro h2; exact absurd h2 (by decide)))
    -- clrW2
    case _ heq =>
      rw [heq] at hws
      simp only [recA, recB, waitsF, waitsS, recVal, waitVal, ownsF, ownsS] at hws
      obtain ⟨ha, hb, hwt, hoF, hoS⟩ := hws
      rw [Option.some.injEq] at hs
      subst hs
      exact inv_setWS p s w hw _ 0 hidle hown hwall hcnt
        (fun _ => rfl)
        (fun _ => rfl)
        (by simp [countWS, heq])
        (by refine ⟨?_, ?_, ?_, ?_, ?_⟩ <;>
              simp only [recA, recB, waitsF, waitsS, recVal, waitVal,
                ownsF, ownsS] <;>
              first
              | trivial
              | rfl
              | exact ha
              | exact hb
              | exact hwt
              | (intro h2; exact hoF trivial)
              | (intro h2; exact hoS trivial)
              | (intro h2; exact absurd h2 (by decide)))
    -- any2
    case _ heq =>
      rw [heq] at hws
      simp only [recA, recB, waitsF, waitsS, recVal, waitVal, ownsF, ownsS] at hws
      obtain ⟨ha, hb, hwt, hoF, hoS⟩ := hws
      rw [Option.some.injEq] at hs
      subst hs
      exact inv_setWS p s w hw _ 0 hidle hown hwall hcnt
        (fun _ => rfl)
        (fun _ => rfl)
        (by simp [countWS, heq])
        (by refine ⟨?_, ?_, ?_, ?_, ?_⟩ <;>
              simp only [recA, recB, waitsF, waitsS, recVal, waitVal,
                ownsF, ownsS] <;>
              first
              | trivial
              | rfl
              | exact ha
              | exact hb
              | exact hwt
              | (intro h2; exact hoF trivial)
              | (intro h2; exact hoS trivial)
              | (intro h2; exact absurd h2 (by decide)))
    -- incT
    case _ heq =>
      rw [heq] at hws
      simp only [recA, recB, waitsF, waitsS, recVal, waitVal, ownsF, ownsS] at hws
      obtain ⟨ha, hb, hwt, hoF, hoS⟩ := hws
      rw [Option.some.injEq] at hs
      subst hs
      exact inv_setWS p s w hw _ 1 hidle hown hwall hcnt
        (fun _ => rfl)
        (fun _ => rfl)
        (by simp [countWS, heq])
        (by refine ⟨?_, ?_, ?_, ?_, ?_⟩ <;>
              simp only [recA, recB, waitsF, waitsS, recVal, waitVal,
                ownsF, ownsS] <;>
              first
              | trivial
              | rfl
              | exact ha
              | exact hb
              | exact hwt
              | (intro h2; exact hoF trivial)
              | (intro h2; exact hoS trivial)
              | (intro h2; exact absurd h2 (by decide)))
    -- incO
    case _ heq =>
      rw [heq] at hws
      simp only [recA, recB, waitsF, waitsS, recVal, waitVal, ownsF, ownsS] at hws
      obtain ⟨ha, hb, hwt, hoF, hoS⟩ := hws
      rw [Option.some.injEq] at hs
      subst hs
      exact inv_setWS p s w hw _ 0 hidle hown hwall hcnt
        (fun _ => rfl)
        (fun _ => rfl)
        (by simp [countWS, heq])
        (by refine ⟨?_, ?_, ?_, ?_, ?_⟩ <;>
              simp only [recA, recB, waitsF, waitsS, recVal, waitVal,
                ownsF, ownsS] <;>
              first
              | trivial
              | rfl
              | exact ha
              | exact hb
              | exact hwt
              | (intro h2; exact hoF trivial)
              | (intro h2; exact hoS trivial)
              | (intro h2; exact absurd h2 (by decide)))
    -- unl2
    case _ heq =>
      rw [heq] at hws
      simp only [recA, recB, waitsF, waitsS, recVal, waitVal, ownsF, ownsS] at hws
      obtain ⟨ha, hb, hwt, hoF, hoS⟩ := hws
      rw [Option.some.injEq] at hs
      subst hs
      exact inv_unlock p s w hw (secondR p w) _ (hoS trivial) hidle hown hwall hcnt
        (fun r hr hrq => by
          rcases hown r w hr with ⟨h1, h2⟩ | ⟨h1, h2⟩
          · exact Or.inl ⟨h1, rfl⟩
          · exact absurd h1 hrq)
        (by simp [countWS, heq])
        (by refine ⟨?_, ?_, ?_, ?_, ?_⟩ <;>
              simp only [recA, recB, waitsF, waitsS, recVal, waitVal,
                ownsF, ownsS] <;>
              first
              | trivial
              | rfl
              | exact ha
              | exact hb
              | exact hwt
              | (intro h2
                 rw [Function.update_noteq (fs_ne p hR w)]
                 exact hoF trivial)
              | (intro h2; exact absurd h2 (by decide)))
    -- clr2
    case _ heq =>
      rw [heq] at hws
      simp only [recA, recB, waitsF, waitsS, recVal, waitVal, ownsF, ownsS] at hws
      obtain ⟨ha, hb, hwt, hoF, hoS⟩ := hws
      have hfc : ((firstR p w : Int) ≠ (secondR p w : Int)) := by
        have := fs_ne p hR w
        omega
      rw [ha, hb, if_neg hfc, if_pos rfl, Option.some.injEq] at hs
      subst hs
      exact inv_setWS p s w hw _ 0 hidle hown hwall hcnt
        (fun _ => rfl)
        (fun h2 => absurd (heq ▸ h2) (by decide))
        (by simp [countWS, heq])
        (by refine ⟨?_, ?_, ?_, ?_, ?_⟩ <;>
              simp only [recA, recB, waitsF, waitsS, recVal, waitVal,
                ownsF, ownsS] <;>
              first
              | trivial
              | rfl
              | exact ha
              | exact hb
              | exact hwt
              | (intro h2; exact hoF trivial)
              | (intro h2; exact hoS trivial)
              | (intro h2; exact absurd h2 (by decide)))
    -- anyR2
    case _ heq =>
      rw [heq] at hws
      simp only [recA, recB, waitsF, waitsS, recVal, waitVal, ownsF, ownsS] at hws
      obtain ⟨ha, hb, hwt, hoF, hoS⟩ := hws
      rw [Option.some.injEq] at hs
      subst hs
      exact inv_setWS p s w hw _ 0 hidle hown hwall hcnt
        (fun _ => rfl)
        (fun h2 => absurd (heq ▸ h2) (by decide))
        (by simp [countWS, heq])
        (by refine ⟨?_, ?_, ?_, ?_, ?_⟩ <;>
              simp only [recA, recB, waitsF, waitsS, recVal, waitVal,
                ownsF, ownsS] <;>
              first
              | trivial
              | rfl
              | exact ha
              | exact hb
              | exact hwt
              | (intro h2; exact hoF trivial)
              | (intro h2; exact hoS trivial)
              | (intro h2; exact absurd h2 (by decide)))
    -- unl1
    case _ heq =>
      rw [heq] at hws
      simp only [recA, recB, waitsF, waitsS, recVal, waitVal, ownsF, ownsS] at hws
      obtain ⟨ha, hb, hwt, hoF, hoS⟩ := hws
      rw [Option.some.injEq] at hs
      subst hs
      exact inv_unlock p s w hw (firstR p w) _ (hoF trivial) hidle hown hwall hcnt
        (fun r hr hrq => by
          rcases hown r w hr with ⟨h1, h2⟩ | ⟨h1, h2⟩
          · exact absurd h1 hrq
          · rw [heq] at h2
            exact absurd h2 (by decide))
        (by simp [countWS, heq])
        (by refine ⟨?_, ?_, ?_, ?_, ?_⟩ <;>
              simp only [recA, recB, waitsF, waitsS, recVal, waitVal,
                ownsF, ownsS] <;>
              first
              | trivial
              | rfl
              | exact ha
              | exact hb
              | exact hwt
              | (intro h2; exact absurd h2 (by decide)))
    -- clr1
    case _ heq =>
      rw [heq] at hws
      simp only [recA, recB, waitsF, waitsS, recVal, waitVal, ownsF, ownsS] at hws
      obtain ⟨ha, hb, hwt, hoF, hoS⟩ := hws
      have hbf : ((-1 : Int) ≠ (firstR p w : Int)) := by omega
      rw [ha, hb, if_pos rfl, if_neg hbf, Option.some.injEq] at hs
      subst hs
      exact inv_setWS p s w hw _ 0 hidle hown hwall hcnt
        (fun h2 => absurd (heq ▸ h2) (by decide))
        (fun h2 => absurd (heq ▸ h2) (by decide))
        (by simp [countWS, heq])
        (by refine ⟨?_, ?_, ?_, ?_, ?_⟩ <;>
              simp only [recA, recB, waitsF, waitsS, recVal, waitVal,
                ownsF, ownsS] <;>
              first
              | trivial
              | rfl
              | exact ha
              | exact hb
              | exact hwt
              | (intro h2; exact hoF trivial)
              | (intro h2; exact hoS trivial)
              | (intro h2; exact absurd h2 (by decide)))
    -- anyR1
    case _ heq =>
      rw [heq] at hws
      simp only [recA, recB, waitsF, waitsS, recVal, waitVal, ownsF, ownsS] at hws
      obtain ⟨ha, hb, hwt, hoF, hoS⟩ := hws
      rw [Option.some.injEq] at hs
      subst hs
      exact inv_setWS p s w hw _ 0 hidle hown hwall hcnt
        (fun h2 => absurd (heq ▸ h2) (by decide))
        (fun h2 => absurd (heq ▸ h2) (by decide))
        (by simp [countWS, heq])
        (by refine ⟨?_, ?_, ?_, ?_, ?_⟩ <;>
              simp only [recA, recB, waitsF, waitsS, recVal, waitVal,
                ownsF, ownsS] <;>
              first
              | trivial
              | rfl
              | exact ha
              | exact hb
              | exact hwt
              | (intro h2; exact hoF trivial)
              | (intro h2; exact hoS trivial)
              | (intro h2; exact absurd h2 (by decide)))
    -- done
    case _ heq => exact Option.noConfusion hs

/-- Every reachable state of the phase satisfies the invariant. -/
theorem reach_inv (p : P) (hR : 2 ≤ p.R) (s : St) (h : Reach p s) : Inv p s := by
  induction h with
  | refl => exact inv_init p
  | tail hab hbc ih => exact step_inv p hR _ _ ih hbc

/-! Section: The wait-for graph -/

lemma blockedOn_some (p : P) (s : St) (v : Nat) (r : Nat)
    (h : blockedOn p s v = some r) :
    ((s.ws v).pc = WPC.lock1 ∧ r = firstR p v) ∨
    ((s.ws v).pc = WPC.lock2 ∧ r = secondR p v) := by
  unfold blockedOn at h
  cases hpc : (s.ws v).pc <;> rw [hpc] at h
  case lock1 =>
    injection h with h
    exact Or.inl ⟨rfl, h.symm⟩
  case lock2 =>
    injection h with h
    exact Or.inr ⟨rfl, h.symm⟩
  all_goals exact Option.noConfusion h

/-- If u has a wait-for edge to v and v itself has an outgoing edge,
then v sits at the lock call of its second resource and the mutex u
waits for is the first resource of v.  A worker blocked on its first
resource owns nothing, so it cannot be waited upon. -/
lemma edge_facts (p : P) (hR : 2 ≤ p.R) (s : St) (hinv : Inv p s) (u v : Nat)
    (huv : wfEdge p s u v) (hvout : ∃ z, wfEdge p s v z) :
    (s.ws v).pc = WPC.lock2 ∧ blockedOn p s u = some (firstR p v) := by
  obtain ⟨r, hbu, hor⟩ := huv
  obtain ⟨z, r2, hbv, hoz⟩ := hvout
  obtain ⟨hidle, hown, hwall, hcnt⟩ := hinv
  rcases blockedOn_some p s v r2 hbv with ⟨hpcv, -⟩ | ⟨hpcv, -⟩
  · rcases hown r v hor with ⟨h1, h2⟩ | ⟨h1, h2⟩ <;> rw [hpcv] at h2 <;>
      exact absurd h2 (by decide)
  · rcases hown r v hor with ⟨h1, h2⟩ | ⟨h1, h2⟩
    · exact ⟨hpcv, h1 ▸ hbu⟩
    · rw [hpcv] at h2
      exact absurd h2 (by decide)

/-- Under the total order, the awaited resource index strictly grows
along wait-for edges whose target is itself blocked. -/
lemma edge_lt (p : P) (hsafe : p.safe = true) (hR : 2 ≤ p.R) (s : St)
    (hinv : Inv p s) (u v : Nat)
    (huv : wfEdge p s u v) (hvout : ∃ z, wfEdge p s v z) :
    tgt p s u < tgt p s v := by
  obtain ⟨hpcv, hbu⟩ := edge_facts p hR s hinv u v huv hvout
  have hbv2 : blockedOn p s v = some (secondR p v) := by
    unfold blockedOn
    rw [hpcv]
  unfold tgt
  rw [hbu, hbv2]
  simp only [Option.getD_some]
  exact safe_first_lt p hsafe hR v

lemma tg_out {α : Type} (e : α → α → Prop) (x y : α)
    (h : Relation.TransGen e x y) : ∃ z, e x z := by
  induction h with
  | single h1 => exact ⟨_, h1⟩
  | tail h1 h2 ih => exact ih

lemma tg_lt (p : P) (hsafe : p.safe = true) (hR : 2 ≤ p.R) (s : St)
    (hinv : Inv p s) (x y : Nat)
    (h : Relation.TransGen (wfEdge p s) x y) (hout : ∃ z, wfEdge p s y z) :
    tgt p s x < tgt p s y := by
  induction h with
  | single h1 => exact edge_lt p hsafe hR s hinv _ _ h1 hout
  | tail h1 h2 ih =>
      exact lt_trans (ih ⟨_, h2⟩) (edge_lt p hsafe hR s hinv _ _ h2 hout)

/-- Running an explicit schedule only visits reachable states. -/
lemma exec_reach (p : P) (l : List Nat) :
    ∀ s s2, (∀ w ∈ l, w < p.W) → exec p s l = some s2 →
      Relation.ReflTransGen (Step p) s s2 := by
  induction l with
  | nil =>
      intro s s2 _ h
      simp only [exec, Option.some.injEq] at h
      subst h
      exact Relation.ReflTransGen.refl
  | cons w l ih =>
      intro s s2 hmem h
      simp only [exec] at h
      cases hstep : stepW p s w with
      | none =>
          rw [hstep] at h
          exact Option.noConfusion h
      | some s1 =>
          rw [hstep] at h
          exact Relation.ReflTransGen.head
            (Step.work s w (hmem w (List.mem_cons_self w l)) s1 hstep)
            (ih s1 s2 (fun x hx => hmem x (List.mem_cons_of_mem w hx)) h)

lemma reach_sBad : Reach p22 sBad :=
  exec_reach p22 schedC5 initSt sBad (by decide) rfl

lemma reach_sLock : Reach p22 sLock :=
  exec_reach p22 [0, 0] initSt sLock (by decide) rfl

/-! Section: Claim C1: the total-order policy admits no wait-for cycle -/

/-- Claim C1 (confirmed).  Under the total-order policy (safe_mode = 1),
for any R at least 2 and W at least 1, no cycle can ever form in the
wait-for graph of workers blocked on resources: in every reachable
state of the interleaved step relation the wait-for graph is acyclic
(the claim's stated equivalent of "total_completed_ops keeps strictly
increasing and the monitor never transitions to Stalled", since a
blocked system needs a wait-for cycle).  Workers acquire in ascending
index order, so along any cycle the awaited index would strictly
increase back to itself. -/
theorem totalOrder_wait_graph_acyclic (R W : Nat) (hR : 2 ≤ R) (hW : 1 ≤ W)
    (s : St) (hreach : Reach { R := R, W := W, safe := true } s) :
    ¬ HasWaitCycle { R := R, W := W, safe := true } s := by
  rintro ⟨w, htg⟩
  have hinv := reach_inv _ hR s hreach
  have hout := tg_out _ _ _ htg
  exact absurd (tg_lt _ rfl hR s hinv w w htg hout) (lt_irrefl _)

/-- Witness for C1 at R = 2, W = 1, in the initial state. -/
theorem totalOrder_wait_graph_acyclic_witness :
    2 ≤ 2 ∧ 1 ≤ 1 ∧ Reach { R := 2, W := 1, safe := true } initSt ∧
    ¬ HasWaitCycle { R := 2, W := 1, safe := true } initSt :=
  ⟨by decide, by decide, Relation.ReflTransGen.refl,
   totalOrder_wait_graph_acyclic 2 1 (by decide) (by decide) initSt
     Relation.ReflTransGen.refl⟩

/-! Section: Claim C2: the unordered hazard does not occur at R = 5, W = 5 -/

lemma p55_no_mutual_edges (s : St) (hreach : Reach p55 s) :
    ∀ u v, wfEdge p55 s u v → wfEdge p55 s v u → False := by
  intro u v huv hvu
  have hinv := reach_inv p55 (by decide) s hreach
  obtain ⟨hpcv, hbu⟩ := edge_facts p55 (by decide) s hinv u v huv ⟨u, hvu⟩
  obtain ⟨hpcu, hbv⟩ := edge_facts p55 (by decide) s hinv v u hvu ⟨v, huv⟩
  have hbu2 : blockedOn p55 s u = some (secondR p55 u) := by
    unfold blockedOn
    rw [hpcu]
  have hbv2 : blockedOn p55 s v = some (secondR p55 v) := by
    unfold blockedOn
    rw [hpcv]
  rw [hbu2, Option.some.injEq] at hbu
  rw [hbv2, Option.some.injEq] at hbv
  have hu5 : u < 5 := by
    by_contra hcon
    have he := hinv.1 u (Nat.le_of_not_lt hcon)
    rw [he] at hpcu
    exact absurd hpcu (by decide)
  have hv5 : v < 5 := by
    by_contra hcon
    have he := hinv.1 v (Nat.le_of_not_lt hcon)
    rw [he] at hpcv
    exact absurd hpcv (by decide)
  have htab : ∀ a, a < 5 → ∀ b, b < 5 →
      ¬ (secondR p55 a = firstR p55 b ∧ secondR p55 b = firstR p55 a) := by
    decide
  exact htab u hu5 v hv5 ⟨hbu, hbv⟩

/-- Claim C2 counterexample.  The claim asserts that under the
unordered policy with R = 5, W = 5 and the deterministic choice
a = id mod R, b = (id+1) mod R, a state is reachable in which two
workers each hold one resource and await the resource held by the
other.  This is false: the pairs (first, second) are (0,1), (2,1),
(2,3), (4,3), (4,0), and no two of them are mutually reversed, so two
mutual wait-for edges can never exist in any reachable state and the
monitor cannot observe such a snapshot.  The parity inversion that was
meant to create the circular wait in fact destroys the ring
0 to 1 to 2 to 3 to 4 to 0 at these parameters. -/
theorem unordered_two_cycle_unreachable :
    ¬ ∃ s, Reach p55 s ∧ TwoCycle p55 s := by
  rintro ⟨s, hreach, u, v, hne, huv, hvu⟩
  exact p55_no_mutual_edges s hreach u v huv hvu

/-- Claim C2 as amended (proved).  Under the unordered policy with
R = 5, W = 5 and the deterministic choice a = id mod R,
b = (id+1) mod R, no reachable state of the interleaved step relation
contains two workers each holding one resource and awaiting the
resource held by the other: the wait-for graph of this configuration
admits no 2-cycle, so the advertised hazard cannot materialise at
these parameters. -/
theorem unordered_no_two_cycle (s : St) (hreach : Reach p55 s) :
    ¬ TwoCycle p55 s := by
  rintro ⟨u, v, hne, huv, hvu⟩
  exact p55_no_mutual_edges s hreach u v huv hvu

/-- Witness for the amended C2 in the initial state. -/
theorem unordered_no_two_cycle_witness :
    Reach p55 initSt ∧ ¬ TwoCycle p55 initSt :=
  ⟨Relation.ReflTransGen.refl,
   unordered_no_two_cycle initSt Relation.ReflTransGen.refl⟩

/-! Section: Claim C5: mutual exclusion as recorded in WorkerState -/

/-- Claim C5 counterexample.  The claim says that in every reachable
state at most one worker's record (hold_a, hold_b) contains a given
resource id.  It is false: release_lock_annotated unlocks the mutex
(line 100) before clearing the record (lines 104-105), so after worker
0 has unlocked its first mutex but not yet cleared hold_a, worker 1
can lock that mutex and record it, and the reachable state sBad shows
resource 0 in the records of both workers. -/
theorem record_mutex_violated :
    ∃ s, Reach p22 s ∧ ∃ r u v : Nat,
      u ≠ v ∧ RecordHolds s u r ∧ RecordHolds s v r :=
  ⟨sBad, reach_sBad, 0, 0, 1, by decide, Or.inl rfl, Or.inl rfl⟩

lemma recA_ownsF : ∀ pc : WPC, recA pc = true → pc ≠ WPC.clr1 → ownsF pc = true := by
  decide

lemma recB_ownsS : ∀ pc : WPC, recB pc = true → pc ≠ WPC.clr2 → ownsS pc = true := by
  decide

/-- A record entry outside the release-clear window certifies real
ownership of the mutex. -/
lemma rec_implies_owner (p : P) (hR : 2 ≤ p.R) (s : St) (hinv : Inv p s)
    (w r : Nat) (hrec : RecordHolds s w r)
    (h1 : (s.ws w).pc ≠ WPC.clr1) (h2 : (s.ws w).pc ≠ WPC.clr2) :
    s.owner r = some w := by
  obtain ⟨hidle, hown, hwall, hcnt⟩ := hinv
  have hws := hwall w
  unfold WInv WInvAt at hws
  obtain ⟨ha, hb, hwt, hoF, hoS⟩ := hws
  rcases hrec with hr | hr
  · rw [ha] at hr
    cases hArec : recA (s.ws w).pc with
    | false =>
        rw [hArec] at hr
        simp only [recVal] at hr
        exact absurd hr (by omega)
    | true =>
        rw [hArec] at hr
        simp only [recVal] at hr
        have hrf : r = firstR p w := by omega
        subst hrf
        exact hoF (recA_ownsF (s.ws w).pc hArec h1)
  · rw [hb] at hr
    cases hBrec : recB (s.ws w).pc with
    | false =>
        rw [hBrec] at hr
        simp only [recVal] at hr
        exact absurd hr (by omega)
    | true =>
        rw [hBrec] at hr
        simp only [recVal] at hr
        have hrf : r = secondR p w := by omega
        subst hrf
        exact hoS (recB_ownsS (s.ws w).pc hBrec h2)

/-- Claim C5 as amended (proved).  In every reachable state, at most
one worker's record (hold_a, hold_b) contains a given resource id,
except that a second record may persist transiently while its owner is
between unlocking the resource and clearing the record (program
counter at a record-clear step of release_lock_annotated): whenever
two distinct workers' records contain the same resource, one of them
is at such a clear step.  The underlying mutex itself is held by at
most one worker at any time by construction of the ownership map. -/
theorem record_mutex_amended (p : P) (hR : 2 ≤ p.R) (s : St) (hreach : Reach p s)
    (r u v : Nat) (hu : RecordHolds s u r) (hv : RecordHolds s v r)
    (hne : u ≠ v) :
    (s.ws u).pc = WPC.clr1 ∨ (s.ws u).pc = WPC.clr2 ∨
    (s.ws v).pc = WPC.clr1 ∨ (s.ws v).pc = WPC.clr2 := by
  have hinv := reach_inv p hR s hreach
  by_cases hu1 : (s.ws u).pc = WPC.clr1
  · exact Or.inl hu1
  by_cases hu2 : (s.ws u).pc = WPC.clr2
  · exact Or.inr (Or.inl hu2)
  by_cases hv1 : (s.ws v).pc = WPC.clr1
  · exact Or.inr (Or.inr (Or.inl hv1))
  by_cases hv2 : (s.ws v).pc = WPC.clr2
  · exact Or.inr (Or.inr (Or.inr hv2))
  have ho1 := rec_implies_owner p hR s hinv u r hu hu1 hu2
  have ho2 := rec_implies_owner p hR s hinv v r hv hv1 hv2
  rw [ho1, Option.some.injEq] at ho2
  exact absurd ho2 hne

/-- Witness for the amended C5 at the double-record state sBad: the
releasing worker 0 is indeed at its record-clear step. -/
theorem record_mutex_amended_witness :
    2 ≤ p22.R ∧ Reach p22 sBad ∧ RecordHolds sBad 0 0 ∧
    RecordHolds sBad 1 0 ∧ (0 : Nat) ≠ 1 ∧
    ((sBad.ws 0).pc = WPC.clr1 ∨ (sBad.ws 0).pc = WPC.clr2 ∨
     (sBad.ws 1).pc = WPC.clr1 ∨ (sBad.ws 1).pc = WPC.clr2) :=
  ⟨by decide, reach_sBad, Or.inl rfl, Or.inl rfl, by decide,
   record_mutex_amended p22 (by decide) sBad reach_sBad 0 0 1
     (Or.inl rfl) (Or.inl rfl) (by decide)⟩

/-! Section: Claim C6: the awaiting annotation of the acquire wrapper -/

/-- Claim C6 (confirmed).  acquire_lock_annotated stores waiting_for
before the blocking pthread_mutex_lock call and clears it only after
the lock returns and the resource is recorded (ex10.c lines 90-96, in
that order).  Consequently, in every reachable state a worker that is
at a lock call (in particular one that is blocked there) has
waiting_for equal to the resource it is acquiring, never the none
sentinel minus one. -/
theorem awaiting_flag_while_blocked (p : P) (hR : 2 ≤ p.R) (s : St) (hreach : Reach p s)
    (w : Nat) :
    ((s.ws w).pc = WPC.lock1 →
      (s.ws w).waiting = (firstR p w : Int) ∧ (s.ws w).waiting ≠ -1) ∧
    ((s.ws w).pc = WPC.lock2 →
      (s.ws w).waiting = (secondR p w : Int) ∧ (s.ws w).waiting ≠ -1) := by
  have hinv := reach_inv p hR s hreach
  obtain ⟨hidle, hown, hwall, hcnt⟩ := hinv
  have hws := hwall w
  unfold WInv WInvAt at hws
  obtain ⟨ha, hb, hwt, hoF, hoS⟩ := hws
  constructor
  · intro hpc
    rw [hpc] at hwt
    simp only [waitsF, waitsS, waitVal] at hwt
    exact ⟨hwt, by omega⟩
  · intro hpc
    rw [hpc] at hwt
    simp only [waitsF, waitsS, waitVal] at hwt
    exact ⟨hwt, by omega⟩

/-- Witness for C6 at the reachable state sLock where worker 0 sits
inside the lock call on its first resource with waiting_for = 0. -/
theorem awaiting_flag_while_blocked_witness :
    2 ≤ p22.R ∧ Reach p22 sLock ∧ (sLock.ws 0).pc = WPC.lock1 ∧
    ((sLock.ws 0).waiting = (firstR p22 0 : Int) ∧ (sLock.ws 0).waiting ≠ -1) :=
  ⟨by decide, reach_sLock, rfl,
   (awaiting_flag_while_blocked p22 (by decide) sLock reach_sLock 0).1 rfl⟩

/-! Section: Claim C9: progress accounting -/

/-- Claim C9 (confirmed).  At every reachable state in which no worker
sits between its increment of the global counter (ex10.c line 147) and
the increment of its own counter (line 148) — in particular after all
workers are joined — total_ops equals the sum of the per-worker ops
counters. -/
theorem progress_accounting (p : P) (hR : 2 ≤ p.R) (s : St) (hreach : Reach p s)
    (hq : ∀ w, w < p.W → (s.ws w).pc ≠ WPC.incO) :
    s.total = ∑ w ∈ Finset.range p.W, (s.ws w).ops := by
  have hinv := reach_inv p hR s hreach
  obtain ⟨-, -, -, hcnt⟩ := hinv
  rw [hcnt]
  refine Finset.sum_congr rfl ?_
  intro w hw
  unfold countWS
  rw [if_neg (hq w (Finset.mem_range.mp hw))]
  omega

/-- Witness for C9 in the initial state. -/
theorem progress_accounting_witness :
    2 ≤ p22.R ∧ Reach p22 initSt ∧
    (∀ w, w < p22.W → (initSt.ws w).pc ≠ WPC.incO) ∧
    initSt.total = ∑ w ∈ Finset.range p22.W, (initSt.ws w).ops :=
  ⟨by decide, Relation.ReflTransGen.refl,
   fun _ _ => (by decide : WPC.idle ≠ WPC.incO),
   progress_accounting p22 (by decide) initSt Relation.ReflTransGen.refl
     (fun _ _ => (by decide : WPC.idle ≠ WPC.incO))⟩

/-! Section: Claims C3 and C4: the two acquisition policies -/

/-- Claim C3 (confirmed).  Under the total-order policy the worker
acquires min(a, b) first and max(a, b) second, unconditionally: the
swap of ex10.c line 132 turns any chosen pair into (min, max), so the
resource locked first is the smaller of tid % R and (tid+1) % R and
the resource locked second is the larger, for every worker. -/
theorem totalOrder_min_max (tid a b R W : Nat) :
    orderPair true tid a b = (min a b, max a b) ∧
    firstR { R := R, W := W, safe := true } tid =
      min (tid % R) ((tid + 1) % R) ∧
    secondR { R := R, W := W, safe := true } tid =
      max (tid % R) ((tid + 1) % R) := by
  have key : ∀ x y : Nat, orderPair true tid x y = (min x y, max x y) := by
    intro x y
    unfold orderPair
    simp only [Bool.not_true, Bool.false_eq_true, if_false]
    split
    · rename_i hyx
      have h1 : min x y = y := by omega
      have h2 : max x y = x := by omega
      rw [h1, h2]
    · rename_i hyx
      have h1 : min x y = x := by omega
      have h2 : max x y = y := by omega
      rw [h1, h2]
  refine ⟨key a b, ?_, ?_⟩
  · show (orderPair true tid (tid % R) ((tid + 1) % R)).1 = _
    rw [key]
  · show (orderPair true tid (tid % R) ((tid + 1) % R)).2 = _
    rw [key]

/-- Claim C4 (confirmed).  Under the unordered policy an odd-indexed
worker acquires (b, a) and an even-indexed worker acquires (a, b):
ex10.c lines 126-129 swap the pair exactly when tid % 2 == 1, so odd
workers lock (tid+1) % R first and tid % R second, and even workers
the opposite. -/
theorem unordered_parity_order (tid a b R W : Nat) :
    orderPair false tid a b = (if tid % 2 = 1 then (b, a) else (a, b)) ∧
    (tid % 2 = 1 →
      firstR { R := R, W := W, safe := false } tid = (tid + 1) % R ∧
      secondR { R := R, W := W, safe := false } tid = tid % R) ∧
    (tid % 2 = 0 →
      firstR { R := R, W := W, safe := false } tid = tid % R ∧
      secondR { R := R, W := W, safe := false } tid = (tid + 1) % R) := by
  refine ⟨by unfold orderPair; simp, ?_, ?_⟩
  · intro hpar
    constructor
    · show (orderPair false tid (tid % R) ((tid + 1) % R)).1 = _
      unfold orderPair
      simp [hpar]
    · show (orderPair false tid (tid % R) ((tid + 1) % R)).2 = _
      unfold orderPair
      simp [hpar]
  · intro hpar
    have hpar1 : ¬ (tid % 2 = 1) := by omega
    constructor
    · show (orderPair false tid (tid % R) ((tid + 1) % R)).1 = _
      unfold orderPair
      simp [hpar1]
    · show (orderPair false tid (tid % R) ((tid + 1) % R)).2 = _
      unfold orderPair
      simp [hpar1]

/-- Witness for C4 at tid = 1 (odd) and tid = 2 (even). -/
theorem unordered_parity_order_witness :
    orderPair false 1 8 9 = (9, 8) ∧
    firstR { R := 5, W := 5, safe := false } 1 = 2 ∧
    secondR { R := 5, W := 5, safe := false } 1 = 1 ∧
    firstR { R := 5, W := 5, safe := false } 2 = 2 ∧
    secondR { R := 5, W := 5, safe := false } 2 = 3 := by
  have h1 := unordered_parity_order 1 8 9 5 5
  have h2 := unordered_parity_order 2 8 9 5 5
  refine ⟨?_, ?_, ?_, ?_, ?_⟩
  · rw [h1.1]; decide
  · rw [(h1.2.1 (by decide)).1]
  · rw [(h1.2.1 (by decide)).2]
  · rw [(h2.2.2 (by decide)).1]
  · rw [(h2.2.2 (by decide)).2]

/-! Section: Claim C7: the watchdog state machine -/

lemma diagFrom_length : ∀ (i : Nat) (l : List WObs),
    (diagFrom i l).length = l.length := by
  intro i l
  induction l generalizing i with
  | nil => rfl
  | cons o l ih => simp [diagFrom, ih]

lemma diagFrom_get (l : List WObs) : ∀ (i j : Nat),
    (diagFrom i l).get? j = (l.get? j).map
      (fun q => { tid := i + j, ha := q.ha, hb := q.hb, wf := q.wf,
                  idle_ns := q.tnow - q.lp, ops := q.ops }) := by
  induction l with
  | nil =>
      intro i j
      simp [diagFrom]
  | cons o l ih =>
      intro i j
      cases j with
      | zero => simp [diagFrom]
      | succ j =>
          show (diagFrom (i + 1) l).get? j = _
          rw [ih (i + 1) j]
          simp only [List.get?_cons_succ]
          simp only [show i + 1 + j = i + (j + 1) from by omega]

lemma wd_stalled_mem (tmo : Int) : ∀ (obs : List WdObs) (lo lc : Int)
    (d : List DiagRec),
    wdRun tmo lo lc obs = WdResult.doneStalled d →
    ∃ o, o ∈ obs ∧ o.stop = false ∧ d = diagFrom 0 o.workers := by
  intro obs
  induction obs with
  | nil =>
      intro lo lc d h
      exact WdResult.noConfusion h
  | cons o rest ih =>
      intro lo lc d h
      rw [wdRun] at h
      by_cases h1 : o.stop
      · rw [if_pos h1] at h
        exact WdResult.noConfusion h
      · rw [if_neg h1] at h
        by_cases h2 : o.curOps ≠ lo
        · rw [if_pos h2] at h
          obtain ⟨o2, hmem, hst, hd⟩ := ih o.curOps o.now d h
          exact ⟨o2, List.mem_cons_of_mem o hmem, hst, hd⟩
        · rw [if_neg h2] at h
          by_cases h3 : tmo ≤ o.now - lc
          · rw [if_pos h3] at h
            injection h with h
            exact ⟨o, List.mem_cons_self o rest,
              Bool.eq_false_iff.mpr h1, h.symm⟩
          · rw [if_neg h3] at h
            obtain ⟨o2, hmem, hst, hd⟩ := ih lo lc d h
            exact ⟨o2, List.mem_cons_of_mem o hmem, hst, hd⟩

/-- Claim C7 (confirmed).  The watchdog loop of ex10.c lines 171-198,
modelled over the sequence of its wakeup observations (the fixed 200ms
sampling period of line 172 is the real-time spacing of that sequence
and stays outside the embedding): (i) if the stop flag is set at the
while check, the monitor terminates quietly with no diagnostic; (ii)
if the sampled counter still equals the tracked last_ops and the time
since the tracked last_change has reached the timeout, it transitions
to Stalled and emits the diagnostic snapshot built from the per-worker
states, after which it terminates (doneStalled both records that
stop = 1 was stored, line 195, and that the loop broke, line 196, so
no transition leaves the terminal state); (iii) a changed counter
resets the tracking to the new count and wakeup time; (iv) otherwise
it keeps watching; (v) whenever the run ends Stalled, the diagnostic
comes from one quiet observation in the sequence and holds exactly one
record per worker, record j carrying (worker_id = j, hold pair,
awaited resource, nanoseconds since last progress, completed ops) of
worker j, in worker order. -/
theorem watchdog_state_machine (tmo lo lc : Int) (obs : List WdObs) :
    (∀ o rest, obs = o :: rest → o.stop = true →
      wdRun tmo lo lc obs = WdResult.doneQuiet) ∧
    (∀ o rest, obs = o :: rest → o.stop = false → o.curOps = lo →
      tmo ≤ o.now - lc →
      wdRun tmo lo lc obs = WdResult.doneStalled (diagFrom 0 o.workers)) ∧
    (∀ o rest, obs = o :: rest → o.stop = false → o.curOps ≠ lo →
      wdRun tmo lo lc obs = wdRun tmo o.curOps o.now rest) ∧
    (∀ o rest, obs = o :: rest → o.stop = false → o.curOps = lo →
      ¬ tmo ≤ o.now - lc →
      wdRun tmo lo lc obs = wdRun tmo lo lc rest) ∧
    (∀ d, wdRun tmo lo lc obs = WdResult.doneStalled d →
      ∃ o, o ∈ obs ∧ o.stop = false ∧ d = diagFrom 0 o.workers ∧
        d.length = o.workers.length ∧
        ∀ j, d.get? j = (o.workers.get? j).map
          (fun q => { tid := j, ha := q.ha, hb := q.hb, wf := q.wf,
                      idle_ns := q.tnow - q.lp, ops := q.ops })) := by
  refine ⟨?_, ?_, ?_, ?_, ?_⟩
  · rintro o rest rfl hstop
    simp [wdRun, hstop]
  · rintro o rest rfl h1 h2 h3
    simp [wdRun, h1, h2, h3]
  · rintro o rest rfl h1 h2
    simp [wdRun, h1, h2]
  · rintro o rest rfl h1 h2 h3
    simp [wdRun, h1, h2, h3]
  · intro d h
    obtain ⟨o, hmem, hst, hd⟩ := wd_stalled_mem tmo obs lo lc d h
    refine ⟨o, hmem, hst, hd, ?_, ?_⟩
    · rw [hd, diagFrom_length]
    · intro j
      rw [hd]
      have hg := diagFrom_get o.workers 0 j
      simpa using hg

/-- Witness for C7: a wakeup observing an unchanged counter past the
timeout yields the Stalled diagnostic with one record for the single
worker. -/
theorem watchdog_state_machine_witness :
    wdRun 5 7 10 [⟨false, 7, 100, [⟨1, -1, 0, 40, 90, 3⟩]⟩] =
      WdResult.doneStalled [⟨0, 1, -1, 0, 50, 3⟩] := by
  have h := (watchdog_state_machine 5 7 10
      [⟨false, 7, 100, [⟨1, -1, 0, 40, 90, 3⟩]⟩]).2.1
    ⟨false, 7, 100, [⟨1, -1, 0, 40, 90, 3⟩]⟩
    [] rfl rfl rfl (by decide)
  rw [h]
  rfl

/-! Section: Claims C8 and C10: configuration parsing and main -/

lemma clampCfg_bounds (c : config_t) :
    2 ≤ (clampCfg c).R ∧ 2 ≤ (clampCfg c).W ∧
    1 ≤ (clampCfg c).watchdog_timeout ∧ 3 ≤ (clampCfg c).duration := by
  unfold clampCfg
  refine ⟨?_, ?_, ?_, ?_⟩ <;> simp only [] <;> split <;> omega

lemma optLoop_isSome (args : List CliOpt) :
    ∀ c : config_t, CliOpt.other ∉ args → (optLoop c args).isSome = true := by
  induction args with
  | nil => intro c _; rfl
  | cons a l ih =>
      intro c hmem
      have ha : a ≠ CliOpt.other := fun h => hmem (h ▸ List.mem_cons_self a l)
      have hl : CliOpt.other ∉ l := fun h => hmem (List.mem_cons_of_mem a h)
      cases a with
      | r v => exact ih _ hl
      | w v => exact ih _ hl
      | t v => exact ih _ hl
      | d v => exact ih _ hl
      | other => exact absurd rfl ha

/-- Claim C8 counterexample.  The claim says configuration handling
never aborts the process fatally, for every command-line input.  But
an input holding -h or any unrecognised option reaches the default
branch of the getopt switch (ex10.c lines 53-56), which prints usage
and calls exit(1) — modelled here as parse_args returning none. -/
theorem parse_args_aborts_on_unknown : parse_args [CliOpt.other] = none := rfl

/-- Claim C8 as amended (proved).  Invalid numeric values of R, W, T, D
are corrected by clamping: every configuration parse_args returns
satisfies R at least 2, W at least 2, T at least 1, D at least 3, an
explicit option list is clamped fieldwise to those minimums, and
parse_args returns a configuration (does not abort) whenever the
input contains no unrecognised option; an input with -h or an unknown
option, however, makes the process print usage and exit(1). -/
theorem parse_args_clamps (args : List CliOpt) (v1 v2 v3 v4 : Int) :
    (∀ c, parse_args args = some c →
      2 ≤ c.R ∧ 2 ≤ c.W ∧ 1 ≤ c.watchdog_timeout ∧ 3 ≤ c.duration) ∧
    (CliOpt.other ∉ args → (parse_args args).isSome = true) ∧
    parse_args [CliOpt.r v1, CliOpt.w v2, CliOpt.t v3, CliOpt.d v4] =
      some { R := max v1 2, W := max v2 2,
             watchdog_timeout := max v3 1, duration := max v4 3 } := by
  refine ⟨?_, ?_, ?_⟩
  · intro c hc
    unfold parse_args at hc
    cases h : optLoop defaultCfg args with
    | none =>
        rw [h] at hc
        simp at hc
    | some c0 =>
        rw [h] at hc
        simp only [Option.map_some', Option.some.injEq] at hc
        exact hc ▸ clampCfg_bounds c0
  · intro hmem
    unfold parse_args
    cases h : optLoop defaultCfg args with
    | none =>
        have hs := optLoop_isSome args defaultCfg hmem
        rw [h] at hs
        exact absurd hs (by simp)
    | some c0 => rfl
  · show some (clampCfg { R := v1, W := v2, watchdog_timeout := v3, duration := v4 }) = _
    unfold clampCfg
    simp only [Option.some.injEq, config_t.mk.injEq]
    refine ⟨?_, ?_, ?_, ?_⟩ <;> split <;> omega

/-- Witness for C8's amended theorem on a concrete input: the value
-7 for R is clamped to 2, the other defaults stay. -/
theorem parse_args_clamps_witness :
    (∀ c, parse_args [CliOpt.r (-7)] = some c →
      2 ≤ c.R ∧ 2 ≤ c.W ∧ 1 ≤ c.watchdog_timeout ∧ 3 ≤ c.duration) ∧
    (CliOpt.other ∉ [CliOpt.r (-7)] →
      (parse_args [CliOpt.r (-7)]).isSome = true) ∧
    parse_args [CliOpt.r (-7), CliOpt.w 0, CliOpt.t 0, CliOpt.d 99] =
      some { R := 2, W := 2, watchdog_timeout := 1, duration := 99 } := by
  have h := parse_args_clamps [CliOpt.r (-7)] (-7) 0 0 99
  exact ⟨h.1, h.2.1, by rw [h.2.2]; rfl⟩

/-- Claim C10 counterexample.  The claim says some command-line input
makes the parsed configuration select the unordered policy and some
other input the total-order policy.  In the code config_t carries no
mode at all and main unconditionally runs phase A with safe_mode = 0
followed by phase B with safe_mode = 1 (ex10.c lines 271 and 276), so
no input yields any phase-mode sequence other than [false, true]. -/
theorem mode_not_configurable :
    ¬ ∃ (args : List CliOpt) (ps : List (config_t × Bool)),
        mainPhases args = some ps ∧ ps.map Prod.snd ≠ [false, true] := by
  rintro ⟨args, ps, hm, hne⟩
  unfold mainPhases at hm
  cases h : parse_args args with
  | none =>
      rw [h] at hm
      simp at hm
  | some c =>
      rw [h] at hm
      simp only [Option.map_some', Option.some.injEq] at hm
      rw [← hm] at hne
      exact hne rfl

/-- Claim C10 as amended (proved).  The configuration consumed from
the command line contains no acquisition-mode value; for every input
that parses, main runs both policies in sequence over the same
configuration: phase A unordered (safe_mode = 0), then phase B
total-order (safe_mode = 1). -/
theorem both_phases_always (args : List CliOpt) (c : config_t)
    (h : parse_args args = some c) :
    mainPhases args = some [(c, false), (c, true)] := by
  unfold mainPhases
  rw [h]
  rfl

/-- Witness for C10's amended theorem at the empty command line. -/
theorem both_phases_always_witness :
    parse_args [] = some defaultCfg ∧
    mainPhases [] = some [(defaultCfg, false), (defaultCfg, true)] :=
  ⟨rfl, both_phases_always [] defaultCfg rfl⟩

end Ex10
